import Mathlib

/-!
Verification of Typerra's cross-context model orchestration and realtime
proofreading pipeline, shallowly embedded from the TypeScript sources
(in-page script and content script).

Text is modelled as `List Char`; JS string slicing maps to list take/drop.
JS numbers used as text offsets are modelled as `Int` (engine output may be
negative or out of bounds, which is exactly what the clamping code guards).
-/

/-- Text, modelled as a list of characters. -/
abbrev Str := List Char

namespace Typerra

/-- Nested `range` object a raw correction record may carry
(the source probes `c.range?.start` and `c.range?.end`). -/
structure RangeObj where
  start? : Option Int := none
  «end?» : Option Int := none
deriving DecidableEq

/-- One candidate suggestion object (the source probes
`c.suggestions[0]?.replacement` and `c.suggestions[0]?.text`). -/
structure SuggestionObj where
  replacement? : Option Str := none
  text? : Option Str := none
deriving DecidableEq

/-- One raw correction record from the engine. The source duck-types these:
every alternative field probed by the resolver in `buildProofreadPayload` is
an optional field here (`none` models "absent or not of the probed type"). -/
structure RawCorr where
  start? : Option Int := none
  offset? : Option Int := none
  startIndex? : Option Int := none
  «end?» : Option Int := none
  endIndex? : Option Int := none
  length? : Option Int := none
  range? : Option RangeObj := none
  rangeStart? : Option Int := none
  rangeEnd? : Option Int := none
  correction? : Option Str := none
  replacement? : Option Str := none
  replacementText? : Option Str := none
  suggestion? : Option Str := none
  suggestions : List SuggestionObj := []
deriving DecidableEq

/-- Raw engine result shape consumed by `buildProofreadPayload`
(`apiResult.corrected`, `apiResult.text`, `apiResult.corrections`;
a non-array `corrections` value is modelled as the empty list). -/
structure ApiResult where
  corrected? : Option Str := none
  text? : Option Str := none
  corrections : List RawCorr := []
deriving DecidableEq

/-- A resolved correction range, as produced by the normalizer:
`{ start, end, replacement? }`. -/
structure ProofRange where
  start : Int
  «end» : Int
  replacement? : Option Str := none
deriving DecidableEq

/-- Start resolution priority chain of `buildProofreadPayload`:
`c.start`, `c.offset`, `c.startIndex`, `c.range?.start`, `c.rangeStart`. -/
def resolveStart (c : RawCorr) : Option Int :=
  c.start? <|> c.offset? <|> c.startIndex? <|> (c.range?.bind RangeObj.start?) <|> c.rangeStart?

/-- End resolution priority chain of `buildProofreadPayload`:
`c.end`, `c.endIndex`, `start + c.length` (when a start resolved),
`c.range?.end`, `c.rangeEnd`. -/
def resolveEnd (c : RawCorr) (s? : Option Int) : Option Int :=
  c.«end?» <|> c.endIndex? <|>
    (match c.length?, s? with
      | some l, some s => some (s + l)
      | _, _ => none) <|>
    (c.range?.bind RangeObj.«end?») <|> c.rangeEnd?

/-- Replacement resolution priority chain of `buildProofreadPayload`:
`c.correction`, `c.replacement`, `c.replacementText`, `c.suggestion`,
`c.suggestions[0].replacement`, `c.suggestions[0].text`. -/
def resolveRepl (c : RawCorr) : Option Str :=
  c.correction? <|> c.replacement? <|> c.replacementText? <|> c.suggestion? <|>
    (c.suggestions.head?.bind SuggestionObj.replacement?) <|>
    (c.suggestions.head?.bind SuggestionObj.text?)

/-- The map/filter over raw corrections in `buildProofreadPayload`: a record
that resolves to both a start and an end yields a range; others are dropped. -/
def buildRanges (corrections : List RawCorr) : List ProofRange :=
  corrections.filterMap fun c =>
    match resolveStart c, resolveEnd c (resolveStart c) with
    | some s, some e => some ⟨s, e, resolveRepl c⟩
    | _, _ => none

/-- JS falsiness filter for strings: an empty string is falsy. -/
def truthyStr (s : Option Str) : Option Str :=
  s.bind fun t => if t.isEmpty then none else some t

/-- `String(apiResult?.corrected || apiResult?.text || '')`. -/
def initialCorrected (r : ApiResult) : Str :=
  ((truthyStr r.corrected?) <|> (truthyStr r.text?)).getD []

/-- One splice step of the synthesis loop in `buildProofreadPayload`:
`s = max(0, min(out.length, corr.start))`, `e = max(s, min(out.length, corr.end))`,
`out = out.slice(0, s) + (replacement or out.slice(s, e)) + out.slice(e)`. -/
def spliceOne (out : Str) (c : ProofRange) : Str :=
  let len : Int := out.length
  let s : Int := max 0 (min len c.start)
  let e : Int := max s (min len c.«end»)
  let sN := s.toNat
  let eN := e.toNat
  out.take sN ++
    (match c.replacement? with
      | some r => r
      | none => (out.drop sN).take (eN - sN)) ++
    out.drop eN

/-- Stable descending insertion by `start`, modelling the JS stable
`[...ranges].sort((a, b) => b.start - a.start)`. -/
def insertDesc (r : ProofRange) : List ProofRange → List ProofRange
  | [] => [r]
  | x :: xs => if x.start ≤ r.start then r :: x :: xs else x :: insertDesc r xs

/-- Stable descending sort by `start` (model of the JS sort used before the
right-to-left splice). -/
def sortDesc (l : List ProofRange) : List ProofRange :=
  l.foldr insertDesc []

/-- Corrected-text synthesis of `buildProofreadPayload`: sort resolved ranges
by start descending, then splice each into a working copy of `base`. -/
def synthesizeCorrected (base : Str) (ranges : List ProofRange) : Str :=
  (sortDesc ranges).foldl spliceOne base

/-- The normalized proofread payload. `cancelled` is absent (falsy) on the
payloads built by `buildProofreadPayload`, modelled as `false`. -/
structure ProofreadPayload where
  corrected : Str
  corrections : List RawCorr
  ranges : List ProofRange
  cancelled : Bool := false
deriving DecidableEq

/-- Shallow embedding of `buildProofreadPayload(base, apiResult)`:
extract raw corrections, resolve ranges, synthesize a corrected string from
the ranges when the engine supplied none, and fall back to `base` when the
corrected string is still empty. The returned `ranges` are the resolved
records as extracted (the source neither clamps nor sorts them here). -/
def buildProofreadPayload (base : Str) (apiResult : ApiResult) : ProofreadPayload :=
  let corrections := apiResult.corrections
  let corrected0 := initialCorrected apiResult
  let ranges := buildRanges corrections
  let corrected1 :=
    if corrected0.isEmpty ∧ ranges ≠ [] then synthesizeCorrected base ranges
    else corrected0
  let corrected2 := if corrected1.isEmpty then base else corrected1
  ⟨corrected2, corrections, ranges, false⟩

/-! The underline overlay's render: the clamp and ascending sort applied to
response ranges before underline segments are computed. -/

/-- Stable ascending insertion by `start` (model of the JS stable
`[...ranges].sort((a, b) => a.start - b.start)` in the overlay's render). -/
def insertAsc (r : ProofRange) : List ProofRange → List ProofRange
  | [] => [r]
  | x :: xs => if x.start < r.start then x :: insertAsc r xs else r :: x :: xs

/-- Stable ascending sort by `start` used by the overlay's render. -/
def sortAsc (l : List ProofRange) : List ProofRange :=
  l.foldr insertAsc []

/-- The per-range clamping in the overlay's render loop:
`s = max(0, min(text.length, r.start))`, `e = max(s, min(text.length, r.end))`. -/
def renderClampRange (textLen : Nat) (r : ProofRange) : Nat × Nat :=
  let s : Int := max 0 (min (textLen : Int) r.start)
  let e : Int := max s (min (textLen : Int) r.«end»)
  (s.toNat, e.toNat)

/-- The clamped, ascending-sorted ranges the overlay's render derives from a
response before computing underline segments (the clamp of a range does not
depend on the running index, so hoisting it out of the loop is faithful). -/
def renderClampedSorted (textLen : Nat) (ranges : List ProofRange) : List (Nat × Nat) :=
  (sortAsc ranges).map (renderClampRange textLen)

/-- One text segment of the overlay, underlined or not. -/
structure Segment where
  start : Nat
  «end» : Nat
  underline : Bool
deriving DecidableEq

/-- The segment loop of the overlay's render over the clamped sorted ranges,
carrying the running index `idx`. -/
def renderSegsAux (textLen : Nat) : List (Nat × Nat) → Nat → List Segment
  | [], idx => if idx < textLen then [⟨idx, textLen, false⟩] else []
  | se :: rest, idx =>
      (if idx < se.1 then [⟨idx, se.1, false⟩] else []) ++
      (if se.1 < se.2 then [⟨se.1, se.2, true⟩] else []) ++
      renderSegsAux textLen rest se.2

/-- Segments drawn by `createUnderlineOverlay.render` for a text of length
`textLen` and the given response ranges. -/
def renderSegments (textLen : Nat) (ranges : List ProofRange) : List Segment :=
  renderSegsAux textLen (renderClampedSorted textLen ranges) 0

/-! Cancellation handling in the in-page `proofread` request handler. -/

/-- A thrown JS error as observed by the catch block of the `proofread` case:
`name` models `String(e?.name || '')` and `message` models
`String(e?.message || e || '')` (the stringified error text). -/
structure JsError where
  name : String
  message : String
deriving DecidableEq

/-- JS `toLowerCase`, character by character. -/
def lowerStr (s : String) : String := ⟨s.data.map Char.toLower⟩

/-- Bool test that `pat` is a prefix of the first argument. -/
def strStartsWith : Str → Str → Bool
  | _, [] => true
  | [], _ :: _ => false
  | c :: cs, d :: ds => c == d && strStartsWith cs ds

/-- Bool test that `pat` occurs as a contiguous substring (JS `includes`). -/
def strContainsSub : Str → Str → Bool
  | hay, pat =>
    strStartsWith hay pat ||
      match hay with
      | [] => false
      | _ :: rest => strContainsSub rest pat

/-- The cancellation-class test of the `proofread` catch block:
`name === 'aborterror'` after lowercasing, or the lowercased message
contains `'cancel'`. -/
def isCancellationError (e : JsError) : Bool :=
  lowerStr e.name == "aborterror" || strContainsSub (lowerStr e.message).toList "cancel".toList

/-- The `proofread` case of `handle`: on success the payload is built by
`buildProofreadPayload`; a cancellation-class failure of the engine call is
converted into a normal `cancelled: true` payload; any other failure is
rethrown. -/
def handleProofread (text : Str) (result : Except JsError ApiResult) :
    Except JsError ProofreadPayload :=
  let base := text
  match result with
  | .ok r => .ok (buildProofreadPayload base r)
  | .error e =>
      if isCancellationError e then .ok ⟨base, [], [], true⟩
      else .error e

/-! Realtime pipeline: debounce-timer body (length cutoff and throttle). -/

/-- `MAX_REALTIME_CHARS` from the content script. -/
def MAX_REALTIME_CHARS : Nat := 2000

/-- `MIN_INTERVAL_MS` from the content script. -/
def MIN_INTERVAL_MS : Int := 700

/-- What the debounce-timer body decides to do once it fires. -/
inductive SchedAction where
  | teardownOverlay
  | reschedule (delay : Int)
  | issue
deriving DecidableEq

/-- The decision logic of the timer body inside `schedule(immediate)`:
oversized text tears the overlay down; otherwise, when less than
`MIN_INTERVAL_MS` elapsed since the last completed proofread AND the call is
not `immediate`, it is rescheduled for exactly the remaining wait; otherwise
the call is issued. -/
def scheduleBody (textLen : Nat) (immediate : Bool) (now lastProofreadAt : Int) :
    SchedAction :=
  if textLen > MAX_REALTIME_CHARS then .teardownOverlay
  else
    let elapsed := now - lastProofreadAt
    if elapsed < MIN_INTERVAL_MS ∧ immediate = false then
      .reschedule (MIN_INTERVAL_MS - elapsed)
    else .issue

/-! In-page idle monitor (liveness evaluator). -/

/-- `MODEL_IDLE_MS` from the in-page script. -/
def MODEL_IDLE_MS : Int := 30000

/-- `PING_MISS_MS` from the in-page script. -/
def PING_MISS_MS : Int := 30000

/-- `HIDDEN_IDLE_MS` from the in-page script. -/
def HIDDEN_IDLE_MS : Int := 20000

/-- `CHECK_INTERVAL_MS` from the in-page script. -/
def CHECK_INTERVAL_MS : Int := 15000

/-- The liveness timestamps `lastActivityAt` and `lastPingAt`. -/
structure LiveState where
  lastActivityAt : Int
  lastPingAt : Int
deriving DecidableEq

/-- One firing of the `setInterval` idle-monitor callback at time `now`:
computes `sinceActivity` and `sincePing`, picks the activity limit by page
visibility, and when either threshold is exceeded invokes `disposeModels`
(the returned Bool) and resets both timestamps to `now`. -/
def idleTick (hidden : Bool) (now : Int) (s : LiveState) : Bool × LiveState :=
  let sinceActivity := now - s.lastActivityAt
  let sincePing := now - s.lastPingAt
  let activityLimit := if hidden then HIDDEN_IDLE_MS else MODEL_IDLE_MS
  if sinceActivity > activityLimit ∨ sincePing > PING_MISS_MS then
    (true, ⟨now, now⟩)
  else (false, s)

/-- Run the idle monitor at the given tick times with no interleaved activity
or pings; returns the number of `disposeModels` invocations and the final
timestamps. -/
def runIdleTicks (hidden : Bool) (times : List Int) (s : LiveState) :
    Nat × LiveState :=
  times.foldl
    (fun acc t =>
      let r := idleTick hidden t acc.2
      (acc.1 + (if r.1 then 1 else 0), r.2))
    (0, s)

/-! In-page message listener and RPC handler. -/

/-- Request parameters (the fields the modelled methods consult). -/
structure Params where
  model? : Option String := none
  text : Str := []
deriving DecidableEq

/-- Successful results of `handle`, one constructor per result shape. -/
inductive RpcValue where
  | okTrue
  | okModel (m : String)
  | str (s : String)
  | payload (p : ProofreadPayload)
deriving DecidableEq

/-- Outcomes of the engine-touching operations, abstracting the model
registry and the engines themselves (an `Except.error` models a thrown
error, carrying its message). -/
structure EngineOracle where
  proofreaderEnsure : Except String Unit
  writerEnsure : Except String Unit
  rewriterEnsure : Except String Unit
  writeResult : Except String String
  rewriteResult : Except String String
  proofreadOutcome : Except JsError ApiResult

/-- The method names the `handle` switch recognizes. -/
def knownMethods : List String :=
  ["ping", "warmup", "ensure", "dispose", "disposeNonProofreader",
   "write", "rewrite", "proofread"]

/-- Shallow embedding of the in-page `handle(method, params)` switch.
Liveness-timestamp updates are side effects irrelevant to the modelled
claims and are omitted; engine calls are resolved through the oracle. -/
def handle (m : String) (p : Params) (o : EngineOracle) : Except String RpcValue :=
  if m = "ping" then .ok .okTrue
  else if m = "warmup" then .ok .okTrue
  else if m = "ensure" then
    let which := lowerStr (p.model?.getD "")
    if which = "proofreader" then o.proofreaderEnsure.map fun _ => .okModel "proofreader"
    else if which = "writer" then o.writerEnsure.map fun _ => .okModel "writer"
    else if which = "rewriter" then o.rewriterEnsure.map fun _ => .okModel "rewriter"
    else .error ("Unknown model: " ++ which)
  else if m = "dispose" then .ok .okTrue
  else if m = "disposeNonProofreader" then .ok .okTrue
  else if m = "write" then o.writeResult.map RpcValue.str
  else if m = "rewrite" then o.rewriteResult.map RpcValue.str
  else if m = "proofread" then
    match handleProofread p.text o.proofreadOutcome with
    | .ok pl => .ok (.payload pl)
    | .error e => .error e.message
  else .error ("Unknown method: " ++ m)

/-- An inbound message envelope as checked by the in-page listener
(`data.__gx === true` and `data.direction === 'cs->inpage'`). -/
structure Envelope where
  gx : Bool
  direction : String
  id : Int
  method : String
  params : Params
deriving DecidableEq

/-- One posted response message (`postResponse(id, result, error)`). -/
structure Posted where
  id : Int
  result : Option RpcValue
  error : Option String
deriving DecidableEq

/-- The in-page `message` listener: a matching envelope is handled and
answered with exactly one `postResponse`, carrying either the result or the
thrown error's message; a non-matching message is ignored. -/
def inpageListener (env : Envelope) (o : EngineOracle) : List Posted :=
  if env.gx = true ∧ env.direction = "cs->inpage" then
    match handle env.method env.params o with
    | .ok r => [⟨env.id, some r, none⟩]
    | .error msg => [⟨env.id, none, some msg⟩]
  else []

/-! Realtime pipeline staleness token (`inflightRef`). -/

/-- Events of one realtime session, from the pipeline's point of view:
`issue c` is the moment call `c` is issued (`const token = ++inflightRef.current`),
`respond c` is the moment call c's response is handled
(`if (token !== inflightRef.current) return`), and `teardown` is the effect
cleanup (`inflightRef.current++`). -/
inductive RtEvent where
  | issue (c : Nat)
  | respond (c : Nat)
  | teardown
deriving DecidableEq

/-- Whether an event supersedes any response still in flight: issuing a newer
call or tearing the session down, both of which bump the counter. -/
def RtEvent.isSupersede : RtEvent → Bool
  | .issue _ => true
  | .teardown => true
  | .respond _ => false

/-- Session state: the staleness counter, the token captured by each issued
call, the log of calls whose payload was applied, and the call whose payload
the session last observed (`lastTextRef`/`lastRangesRef` are written only
when a response is applied). -/
structure RtState where
  counter : Nat
  tokens : List (Nat × Nat)
  applied : List Nat
  lastObserved : Option Nat
deriving DecidableEq

/-- Token captured by call `c`, if it was issued. -/
def lookupTok (l : List (Nat × Nat)) (c : Nat) : Option Nat :=
  (l.find? fun p => p.1 == c).map fun p => p.2

/-- One step of the realtime session. Issuing bumps the counter and captures
it as the call's token; teardown bumps the counter; handling a response
applies the payload only when the captured token still equals the counter,
and otherwise changes nothing. -/
def rtStep (s : RtState) (e : RtEvent) : RtState :=
  match e with
  | .issue c =>
      ⟨s.counter + 1, (c, s.counter + 1) :: s.tokens, s.applied, s.lastObserved⟩
  | .teardown => ⟨s.counter + 1, s.tokens, s.applied, s.lastObserved⟩
  | .respond c =>
      match lookupTok s.tokens c with
      | some t =>
          if t = s.counter then ⟨s.counter, s.tokens, s.applied ++ [c], some c⟩
          else s
      | none => s

/-- Run a realtime session trace. -/
def rtRun (s : RtState) (tr : List RtEvent) : RtState :=
  tr.foldl rtStep s

/-- Fresh session state. -/
def rtInit : RtState := ⟨0, [], [], none⟩

/-! Model registry (creation coalescing in getWriter / getRewriter /
getProofreader, one kind shown; the three are textually identical). -/

/-- Registry state for one engine kind: the cached instance, the in-flight
creation promise, a fresh-promise counter, the number of underlying
`create()` invocations started, and the settlement log of creation promises
(`some inst` for success, `none` for failure; every caller holding that
promise observes exactly this settlement). -/
structure RegState where
  cached : Option Nat := none
  creating : Option Nat := none
  nextPromise : Nat := 0
  createCalls : Nat := 0
  settled : List (Nat × Option Nat) := []
deriving DecidableEq

/-- What one `getX()` call returns: the cached instance, the already
in-flight creation promise, or a newly started creation promise. -/
inductive AcqResult where
  | cachedInst (i : Nat)
  | joined (p : Nat)
  | started (p : Nat)
deriving DecidableEq

/-- One `getX()` call: return the cached instance if present; else return
the in-flight promise if present; else start a creation (one underlying
`create()` call) and store its promise as in flight. -/
def acquireStep (s : RegState) : AcqResult × RegState :=
  match s.cached with
  | some i => (.cachedInst i, s)
  | none =>
      match s.creating with
      | some p => (.joined p, s)
      | none =>
          (.started s.nextPromise,
            { s with
              creating := some s.nextPromise,
              nextPromise := s.nextPromise + 1,
              createCalls := s.createCalls + 1 })

/-- Successful completion of the in-flight creation with instance `inst`:
cache the instance, clear the in-flight marker, settle the promise. -/
def completeOk (inst : Nat) (s : RegState) : RegState :=
  match s.creating with
  | some p =>
      { s with cached := some inst, creating := none, settled := (p, some inst) :: s.settled }
  | none => s

/-- Failed completion of the in-flight creation: clear the in-flight marker,
settle the promise as a failure, cache nothing. -/
def completeFail (s : RegState) : RegState :=
  match s.creating with
  | some p => { s with creating := none, settled := (p, none) :: s.settled }
  | none => s

/-- `n` sequential `getX()` calls with no completion in between (the shape of
N logically concurrent callers on the single-threaded event loop). -/
def acquireN : Nat → RegState → List AcqResult × RegState
  | 0, s => ([], s)
  | n + 1, s =>
      let r := acquireStep s
      let rest := acquireN n r.2
      (r.1 :: rest.1, rest.2)

/-- Fresh registry state. -/
def regInit : RegState := {}

/-! Correlation bridge (content-script side): `callInpage`, its 60 s timeout,
and the response listener over the `pending` map. -/

/-- The bridge's request timeout (`60000` in `callInpage`). The timer of a
request fires this many milliseconds after the request is posted; the
`timeoutFire` event below is that firing. -/
def CALL_TIMEOUT_MS : Nat := 60000

/-- How a pending entry was settled. -/
inductive BridgeOutcome where
  | timedOut
  | resolved
  | rejectedErr
deriving DecidableEq

/-- Bridge events: posting a request (`pending.set(id, ...)`), the firing of
that request's 60 s timer, and the arrival of a response for `id` (whose
`error` field presence is `isErr`). -/
inductive BrEvent where
  | send (id : Nat)
  | timeoutFire (id : Nat)
  | response (id : Nat) (isErr : Bool)
deriving DecidableEq

/-- Bridge state: the ids in the `pending` map and the settlement log. -/
structure BridgeState where
  pendingIds : List Nat
  outcomes : List (Nat × BridgeOutcome)
deriving DecidableEq

/-- One bridge step. A timer firing for a still-pending id deletes the entry
and rejects it with the timeout failure; for an absent id it does nothing.
A response for a pending id deletes the entry and settles it; a response
whose id is not in the map is dropped without effect. -/
def brStep (s : BridgeState) (e : BrEvent) : BridgeState :=
  match e with
  | .send i => ⟨i :: s.pendingIds, s.outcomes⟩
  | .timeoutFire i =>
      if i ∈ s.pendingIds then
        ⟨s.pendingIds.filter (fun j => j ≠ i), s.outcomes ++ [(i, .timedOut)]⟩
      else s
  | .response i isErr =>
      if i ∈ s.pendingIds then
        ⟨s.pendingIds.filter (fun j => j ≠ i),
          s.outcomes ++ [(i, if isErr then .rejectedErr else .resolved)]⟩
      else s

/-- Run a bridge trace. -/
def brRun (s : BridgeState) (tr : List BrEvent) : BridgeState :=
  tr.foldl brStep s

/-- Fresh bridge state. -/
def brInit : BridgeState := ⟨[], []⟩

/-- Modelled from the spec's words for the refinement half of the synthesis
claim: applying all edits left-to-right against the base text's original
offsets (the cursor `pos` walks the original base; each edit copies the
untouched gap, emits the replacement — or the original substring when no
replacement exists — and continues after the edit's end). -/
def applyEditsLTR (base : Str) (pos : Nat) : List ProofRange → Str
  | [] => base.drop pos
  | r :: rest =>
      (base.drop pos).take (r.start.toNat - pos) ++
      (match r.replacement? with
        | some s => s
        | none => (base.drop r.start.toNat).take (r.«end».toNat - r.start.toNat)) ++
      applyEditsLTR base r.«end».toNat rest

/-! Theorems. -/

theorem mem_insertAsc {x r : ProofRange} {l : List ProofRange} :
    x ∈ insertAsc r l ↔ x = r ∨ x ∈ l := by
  induction l with
  | nil => simp [insertAsc]
  | cons y ys ih =>
      unfold insertAsc
      split
      · rw [List.mem_cons, ih, List.mem_cons]
        tauto
      · simp only [List.mem_cons]

theorem insertAsc_pairwise {r : ProofRange} {l : List ProofRange}
    (h : l.Pairwise fun a b => a.start ≤ b.start) :
    (insertAsc r l).Pairwise fun a b => a.start ≤ b.start := by
  induction l with
  | nil => simp [insertAsc]
  | cons x xs ih =>
      rw [List.pairwise_cons] at h
      obtain ⟨hx, hxs⟩ := h
      unfold insertAsc
      split
      · next hlt =>
          rw [List.pairwise_cons]
          refine ⟨?_, ih hxs⟩
          intro y hy
          rcases mem_insertAsc.mp hy with rfl | hy
          · omega
          · exact hx y hy
      · next hge =>
          rw [List.pairwise_cons]
          refine ⟨?_, List.pairwise_cons.mpr ⟨hx, hxs⟩⟩
          intro y hy
          rcases List.mem_cons.mp hy with rfl | hy
          · omega
          · have := hx y hy; omega

theorem sortAsc_pairwise (l : List ProofRange) :
    (sortAsc l).Pairwise fun a b => a.start ≤ b.start := by
  induction l with
  | nil => simp [sortAsc]
  | cons r rs ih => exact insertAsc_pairwise ih

/-- C3 counterexample: `buildProofreadPayload` returns the resolved ranges
exactly as extracted — neither sorted ascending by start nor clamped to
`[0, len(base)]`. For base `"ab"` (length 2) and raw records
`[{start: 5, end: 9}, {start: 0, end: 1}]` the returned list is
`[(5, 9), (0, 1)]`: out of order and out of bounds. -/
theorem c3_counterexample :
    (buildProofreadPayload "ab".toList
        { corrections := [{ start? := some 5, «end?» := some 9 },
                          { start? := some 0, «end?» := some 1 }] }).ranges
      = [⟨5, 9, none⟩, ⟨0, 1, none⟩] ∧
    ¬ ((buildProofreadPayload "ab".toList
        { corrections := [{ start? := some 5, «end?» := some 9 },
                          { start? := some 0, «end?» := some 1 }] }).ranges.Pairwise
        fun a b => a.start ≤ b.start) ∧
    ¬ (∀ r ∈ (buildProofreadPayload "ab".toList
        { corrections := [{ start? := some 5, «end?» := some 9 },
                          { start? := some 0, «end?» := some 1 }] }).ranges,
        0 ≤ r.start ∧ r.start ≤ r.«end» ∧ r.«end» ≤ (("ab".toList).length : Int)) := by
  decide

/-- C3 (amended): the clamp and ascending sort happen in the underline
renderer, not in `buildProofreadPayload`: for every text length and every
raw range list, the clamped sorted ranges the overlay's render computes
before building segments are sorted ascending by start, and each satisfies
`start ≤ end ≤ textLen` (starts are nonnegative by the clamp to `Nat`). -/
theorem c3_render_clamp_sort (textLen : Nat) (ranges : List ProofRange) :
    ((renderClampedSorted textLen ranges).Pairwise fun a b => a.1 ≤ b.1) ∧
    ∀ p ∈ renderClampedSorted textLen ranges, p.1 ≤ p.2 ∧ p.2 ≤ textLen := by
  constructor
  · unfold renderClampedSorted
    rw [List.pairwise_map]
    refine (sortAsc_pairwise ranges).imp ?_
    intro a b hab
    unfold renderClampRange
    dsimp only
    apply Int.toNat_le_toNat
    omega
  · intro p hp
    unfold renderClampedSorted at hp
    rw [List.mem_map] at hp
    obtain ⟨r, -, rfl⟩ := hp
    unfold renderClampRange
    dsimp only
    constructor
    · apply Int.toNat_le_toNat; omega
    · rw [Int.toNat_le]; omega

theorem insertDesc_all_gt {r : ProofRange} {l : List ProofRange}
    (h : ∀ x ∈ l, r.start < x.start) : insertDesc r l = l ++ [r] := by
  induction l with
  | nil => rfl
  | cons x xs ih =>
      unfold insertDesc
      rw [if_neg (by have := h x (List.mem_cons_self x xs); omega)]
      rw [ih fun y hy => h y (List.mem_cons_of_mem x hy)]
      rfl

theorem sortDesc_asc {rs : List ProofRange}
    (h : rs.Pairwise fun a b => a.start < b.start) : sortDesc rs = rs.reverse := by
  induction rs with
  | nil => rfl
  | cons r rest ih =>
      rw [List.pairwise_cons] at h
      obtain ⟨hr, hrest⟩ := h
      show insertDesc r (sortDesc rest) = (r :: rest).reverse
      rw [ih hrest, List.reverse_cons]
      exact insertDesc_all_gt fun x hx => hr x (List.mem_reverse.mp hx)

theorem applyLTR_split (base : Str) (p q : Nat) (rs : List ProofRange)
    (hpq : p ≤ q) (hq : ∀ r ∈ rs, q ≤ r.start.toNat) :
    applyEditsLTR base p rs = (base.drop p).take (q - p) ++ applyEditsLTR base q rs := by
  cases rs with
  | nil =>
      show base.drop p = (base.drop p).take (q - p) ++ base.drop q
      have h1 : base.drop q = (base.drop p).drop (q - p) := by
        rw [List.drop_drop]
        congr 1
        omega
      rw [h1, List.take_append_drop]
  | cons r rest =>
      have hs : q ≤ r.start.toNat := hq r (List.mem_cons_self r rest)
      simp only [applyEditsLTR]
      have h1 : (base.drop p).take (r.start.toNat - p)
          = (base.drop p).take ((q - p) + (r.start.toNat - q)) := by congr 1; omega
      have h2 : ((base.drop p).drop (q - p)) = base.drop q := by
        rw [List.drop_drop]
        congr 1
        omega
      rw [h1, List.take_add, h2]
      simp [List.append_assoc]

theorem spliceOne_in_bounds (out : Str) (c : ProofRange) (h0 : 0 ≤ c.start)
    (hse : c.start ≤ c.«end») (hlen : c.«end» ≤ (out.length : Int)) :
    spliceOne out c = out.take c.start.toNat ++
      (match c.replacement? with
        | some s => s
        | none => (out.drop c.start.toNat).take (c.«end».toNat - c.start.toNat)) ++
      out.drop c.«end».toNat := by
  unfold spliceOne
  dsimp only
  have h2 : max (max 0 (min (out.length : Int) c.start)) (min (out.length : Int) c.«end»)
      = c.«end» := by omega
  have h1 : max 0 (min (out.length : Int) c.start) = c.start := by omega
  rw [h2, h1]

theorem foldl_splice_reverse (base : Str) (rs : List ProofRange)
    (hs : rs.Pairwise fun a b => a.«end» ≤ b.start)
    (hw : ∀ r ∈ rs, 0 ≤ r.start ∧ r.start ≤ r.«end» ∧ r.«end» ≤ (base.length : Int)) :
    (rs.reverse).foldl spliceOne base = applyEditsLTR base 0 rs := by
  induction rs with
  | nil => simp [applyEditsLTR]
  | cons r rest ih =>
      rw [List.pairwise_cons] at hs
      obtain ⟨hr, hrest⟩ := hs
      obtain ⟨h0, hse, heb⟩ := hw r (List.mem_cons_self r rest)
      have ihh := ih hrest fun x hx => hw x (List.mem_cons_of_mem r hx)
      rw [List.reverse_cons, List.foldl_append]
      show spliceOne ((rest.reverse).foldl spliceOne base) r = _
      rw [ihh]
      have he0 : (0 : Int) ≤ r.«end» := le_trans h0 hse
      have hseq : (r.start.toNat : Int) = r.start := Int.toNat_of_nonneg h0
      have heeq : (r.«end».toNat : Int) = r.«end» := Int.toNat_of_nonneg he0
      have hsNeN : r.start.toNat ≤ r.«end».toNat := Int.toNat_le_toNat hse
      have heNlen : r.«end».toNat ≤ base.length := Int.toNat_le.mpr heb
      have hq : ∀ x ∈ rest, r.«end».toNat ≤ x.start.toNat := fun x hx =>
        Int.toNat_le_toNat (hr x hx)
      have hsplit := applyLTR_split base 0 r.«end».toNat rest (Nat.zero_le _) hq
      simp only [List.drop_zero, Nat.sub_zero] at hsplit
      rw [hsplit]
      set sN := r.start.toNat with hsN
      set eN := r.«end».toNat with heN
      set T := applyEditsLTR base eN rest with hT
      have hl1 : (base.take eN).length = eN := by
        rw [List.length_take]
        omega
      have houtlen : r.«end» ≤ ((base.take eN ++ T).length : Int) := by
        rw [List.length_append, hl1]
        push_cast
        omega
      rw [spliceOne_in_bounds (base.take eN ++ T) r h0 hse houtlen]
      have pA : (base.take eN ++ T).take sN = base.take sN := by
        rw [List.take_append_eq_append_take, hl1, Nat.sub_eq_zero_of_le hsNeN,
          List.take_zero, List.append_nil, List.take_take, Nat.min_eq_left hsNeN]
      have pB : (base.take eN ++ T).drop eN = T := by
        rw [List.drop_append_eq_append_drop, hl1, Nat.sub_self, List.drop_zero,
          List.drop_eq_nil_of_le (le_of_eq hl1), List.nil_append]
      have pC : ((base.take eN ++ T).drop sN).take (eN - sN)
          = (base.drop sN).take (eN - sN) := by
        rw [List.drop_append_eq_append_drop, hl1, Nat.sub_eq_zero_of_le hsNeN,
          List.drop_zero, List.take_append_eq_append_take]
        have hl2 : ((base.take eN).drop sN).length = eN - sN := by
          rw [List.length_drop, hl1]
        rw [hl2, Nat.sub_self, List.take_zero, List.append_nil, List.drop_take,
          List.take_take, Nat.min_self]
      simp only [applyEditsLTR, List.drop_zero, Nat.sub_zero, ← hsN, ← heN, ← hT]
      cases hrep : r.replacement? with
      | none =>
          dsimp only
          rw [pA, pB, pC]
      | some sRep =>
          dsimp only
          rw [pA, pB]

/-- C4: corrected-text synthesis. When the engine supplies no corrected
string but ranges resolve, `buildProofreadPayload` splices replacements
right-to-left over a descending sort: for base "Teh cat sat" with the single
raw correction `{start: 0, end: 3, replacement: "The"}` and no corrected
field the payload's corrected string is "The cat sat"; and for every base
and every list of in-bounds, disjoint ranges (listed ascending), the
synthesis equals applying all edits left-to-right against the base's
original offsets. -/
theorem c4_synthesis_correctness :
    (buildProofreadPayload "Teh cat sat".toList
        { corrections := [{ start? := some 0, «end?» := some 3,
                            replacement? := some "The".toList }] }).corrected
      = "The cat sat".toList ∧
    ∀ (base : Str) (rs : List ProofRange),
      (rs.Pairwise fun a b => a.«end» ≤ b.start ∧ a.start < b.start) →
      (∀ r ∈ rs, 0 ≤ r.start ∧ r.start ≤ r.«end» ∧ r.«end» ≤ (base.length : Int)) →
      synthesizeCorrected base rs = applyEditsLTR base 0 rs := by
  refine ⟨by decide, fun base rs hp hw => ?_⟩
  unfold synthesizeCorrected
  rw [sortDesc_asc (hp.imp fun h => h.2)]
  exact foldl_splice_reverse base rs (hp.imp fun h => h.1) hw

/-- C4 witness: the right-to-left synthesis and the left-to-right application
agree on the spec's own example input. -/
theorem c4_witness :
    synthesizeCorrected "Teh cat sat".toList [⟨0, 3, some "The".toList⟩] =
      applyEditsLTR "Teh cat sat".toList 0 [⟨0, 3, some "The".toList⟩] :=
  c4_synthesis_correctness.2 "Teh cat sat".toList [⟨0, 3, some "The".toList⟩]
    (by decide) (by decide)

/-- C5: cancellation passthrough. If the engine's proofread call fails with a
cancellation-class error (name equal to "AbortError" case-insensitively, or
message containing "cancel" after lowercasing), the `proofread` handler
returns normally with `{corrected: base, corrections: [], ranges: [],
cancelled: true}`; every other engine failure propagates as an error. -/
theorem c5_cancellation_passthrough (text : Str) (e : JsError) :
    (isCancellationError e = true →
      handleProofread text (.error e) = .ok ⟨text, [], [], true⟩) ∧
    (isCancellationError e = false →
      handleProofread text (.error e) = .error e) := by
  constructor <;> intro h <;> simp [handleProofread, h]

/-- C5 witness: an AbortError is converted to a cancelled payload, and a
TypeError propagates. -/
theorem c5_witness :
    handleProofread "hi".toList (.error ⟨"AbortError", ""⟩) =
      .ok ⟨"hi".toList, [], [], true⟩ ∧
    handleProofread "hi".toList (.error ⟨"TypeError", "boom"⟩) =
      .error ⟨"TypeError", "boom"⟩ :=
  ⟨(c5_cancellation_passthrough "hi".toList ⟨"AbortError", ""⟩).1 (by decide),
   (c5_cancellation_passthrough "hi".toList ⟨"TypeError", "boom"⟩).2 (by decide)⟩

theorem idleTick_spec (hidden : Bool) (now : Int) (s : LiveState) :
    idleTick hidden now s =
      if now - s.lastActivityAt > (if hidden then HIDDEN_IDLE_MS else MODEL_IDLE_MS) ∨
          now - s.lastPingAt > PING_MISS_MS
      then (true, ⟨now, now⟩) else (false, s) := rfl

/-- C7 counterexample: with the page hidden (activity threshold 20 s) and no
activity or pings at all, evaluator ticks at 15 s, 30 s, 45 s and 60 s invoke
full disposal twice within the single idle episode (at 30 s and 60 s), not
exactly once as the claim states. -/
theorem c7_counterexample :
    (runIdleTicks true [15000, 30000, 45000, 60000] ⟨0, 0⟩).1 = 2 ∧
    ¬ ((runIdleTicks true [15000, 30000, 45000, 60000] ⟨0, 0⟩).1 ≤ 1) := by
  decide

/-- C7 (amended): when a tick of the liveness evaluator triggers disposal, it
resets both `lastActivityAt` and `lastPingAt` to the current time, and no
later tick within `HIDDEN_IDLE_MS` (20 s, the smaller of the two activity
thresholds, in particular the very next 15 s tick) triggers disposal again —
so disposal fires at most once per threshold window rather than once per
tick, but it does recur once more than a threshold elapses again while the
idle episode continues. -/
theorem c7_idle_disposal (hidden : Bool) (now : Int) (s s' : LiveState)
    (h : idleTick hidden now s = (true, s')) :
    s' = ⟨now, now⟩ ∧
    ∀ now2, now2 - now ≤ HIDDEN_IDLE_MS → (idleTick hidden now2 s').1 = false := by
  rw [idleTick_spec] at h
  by_cases hc : now - s.lastActivityAt > (if hidden then HIDDEN_IDLE_MS else MODEL_IDLE_MS) ∨
      now - s.lastPingAt > PING_MISS_MS
  · rw [if_pos hc] at h
    injection h with h1 h2
    subst h2
    refine ⟨rfl, fun now2 hle => ?_⟩
    have hfalse : ¬(now2 - now > (if hidden then HIDDEN_IDLE_MS else MODEL_IDLE_MS) ∨
        now2 - now > PING_MISS_MS) := by
      unfold HIDDEN_IDLE_MS at hle
      unfold HIDDEN_IDLE_MS MODEL_IDLE_MS PING_MISS_MS
      cases hidden <;> simp <;> omega
    unfold idleTick
    dsimp only
    rw [if_neg hfalse]
  · rw [if_neg hc] at h
    injection h with h1 h2
    cases h1

/-- C7 witness: a hidden-page tick at 30 s over untouched timestamps
disposes, resets both timestamps to 30 s, and the following tick at 45 s
does not dispose again. -/
theorem c7_witness :
    ((⟨30000, 30000⟩ : LiveState) = ⟨30000, 30000⟩) ∧
    (idleTick true 45000 ⟨30000, 30000⟩).1 = false :=
  ⟨(c7_idle_disposal true 30000 ⟨0, 0⟩ ⟨30000, 30000⟩ (by decide)).1,
   (c7_idle_disposal true 30000 ⟨0, 0⟩ ⟨30000, 30000⟩ (by decide)).2 45000 (by decide)⟩

/-- C8 counterexample: an immediate invocation of the debounce body (boundary
character, Enter/Space, the initial run, or a rescheduled retry) bypasses the
minimum-interval throttle: with only 100 ms elapsed since the last completed
proofread (less than the 700 ms minimum) and a small text, the call is
issued anyway rather than rescheduled. -/
theorem c8_counterexample :
    ((100 : Int) - 0 < MIN_INTERVAL_MS) ∧ 5 ≤ MAX_REALTIME_CHARS ∧
    scheduleBody 5 true 100 0 = .issue := by
  decide

/-- C8 (amended): the minimum-interval throttle is enforced only for
non-immediate invocations of the debounce body: when the body fires with
`immediate = false` and less than `MIN_INTERVAL_MS` (700 ms) has elapsed
since the last completed proofread, the call is not issued and not dropped
but rescheduled to fire after exactly the remaining wait; when enough time
has elapsed the call is issued; and an `immediate = true` invocation is
issued regardless of the elapsed time. -/
theorem c8_throttle (textLen : Nat) (now lastAt : Int)
    (hlen : textLen ≤ MAX_REALTIME_CHARS) :
    (now - lastAt < MIN_INTERVAL_MS →
       scheduleBody textLen false now lastAt = .reschedule (MIN_INTERVAL_MS - (now - lastAt))) ∧
    (MIN_INTERVAL_MS ≤ now - lastAt → ∀ imm, scheduleBody textLen imm now lastAt = .issue) ∧
    (now - lastAt < MIN_INTERVAL_MS → scheduleBody textLen true now lastAt = .issue) := by
  unfold MAX_REALTIME_CHARS at hlen
  refine ⟨fun h => ?_, fun h imm => ?_, fun h => ?_⟩ <;>
    unfold scheduleBody MAX_REALTIME_CHARS <;>
    rw [if_neg (by omega)] <;> dsimp only
  · rw [if_pos ⟨h, rfl⟩]
  · rw [if_neg (by rintro ⟨h1, -⟩; omega)]
  · rw [if_neg (by rintro ⟨-, h2⟩; cases h2)]

/-- C8 witness: at 100 ms elapsed a non-immediate call is rescheduled for the
remaining 600 ms, and an immediate call is issued. -/
theorem c8_witness :
    scheduleBody 5 false 100 0 = .reschedule (MIN_INTERVAL_MS - ((100 : Int) - 0)) ∧
    scheduleBody 5 true 100 0 = .issue :=
  ⟨(c8_throttle 5 100 0 (by decide)).1 (by decide),
   (c8_throttle 5 100 0 (by decide)).2.2 (by decide)⟩

theorem ite_nonempty (base X : Str) (h : base ≠ []) :
    (if X.isEmpty then base else X) ≠ [] := by
  split
  · exact h
  · next h2 => intro hc; rw [hc] at h2; simp at h2

/-- C9: the payload's corrected string is never empty when the base text is
non-empty — the final fallback in `buildProofreadPayload` replaces an empty
corrected string (engine supplied none and synthesis was impossible or
itself produced the empty string) with `base`; in particular a single
correction deleting the whole text yields `corrected = base` unchanged. -/
theorem c9_corrected_nonempty (base : Str) (api : ApiResult) (h : base ≠ []) :
    (buildProofreadPayload base api).corrected ≠ [] ∧
    (buildProofreadPayload "abc".toList
        { corrections := [{ start? := some 0, «end?» := some 3,
                            replacement? := some [] }] }).corrected
      = "abc".toList := by
  refine ⟨?_, by decide⟩
  unfold buildProofreadPayload
  dsimp only
  exact ite_nonempty base _ h

/-- C9 witness: a one-character base with an empty engine result yields a
non-empty corrected string. -/
theorem c9_witness :
    (buildProofreadPayload "a".toList {}).corrected ≠ [] :=
  (c9_corrected_nonempty "a".toList {} (by decide)).1

/-- C10: every well-formed inbound request (matching envelope with direction
"cs->inpage") receives exactly one posted response; an unrecognized method is
answered with an error "Unknown method: (method)", and `ensure` with an
unrecognized model name is answered with an error "Unknown model: (model)"
(the model name as lowercased by the handler). -/
theorem c10_exactly_one_response (env : Envelope) (o : EngineOracle) :
    (env.gx = true → env.direction = "cs->inpage" → (inpageListener env o).length = 1) ∧
    (∀ m p, m ∉ knownMethods → handle m p o = .error ("Unknown method: " ++ m)) ∧
    (∀ p, lowerStr (p.model?.getD "") ∉ ["proofreader", "writer", "rewriter"] →
       handle "ensure" p o = .error ("Unknown model: " ++ lowerStr (p.model?.getD ""))) := by
  refine ⟨fun h1 h2 => ?_, fun m p hm => ?_, fun p hm => ?_⟩
  · unfold inpageListener
    rw [if_pos ⟨h1, h2⟩]
    cases handle env.method env.params o <;> simp
  · simp only [knownMethods, List.mem_cons, List.mem_singleton, not_or] at hm
    obtain ⟨n1, n2, n3, n4, n5, n6, n7, n8⟩ := hm
    simp [handle, n1, n2, n3, n4, n5, n6, n7, n8]
  · simp only [List.mem_cons, List.mem_singleton, not_or] at hm
    obtain ⟨n1, n2, n3⟩ := hm
    simp [handle, n1, n2, n3]

/-- C10 witness: a well-formed request with a bogus method gets exactly one
response; the handler reports the unknown method, and `ensure` with model
"Gemini" reports the unknown (lowercased) model. -/
theorem c10_witness :
    (inpageListener ⟨true, "cs->inpage", 1, "bogus", {}⟩
      ⟨.ok (), .ok (), .ok (), .ok "", .ok "", .ok {}⟩).length = 1 ∧
    handle "bogus" {} ⟨.ok (), .ok (), .ok (), .ok "", .ok "", .ok {}⟩ =
      .error ("Unknown method: " ++ "bogus") ∧
    handle "ensure" { model? := some "Gemini" } ⟨.ok (), .ok (), .ok (), .ok "", .ok "", .ok {}⟩ =
      .error ("Unknown model: " ++ lowerStr ((some "Gemini").getD "")) :=
  ⟨(c10_exactly_one_response ⟨true, "cs->inpage", 1, "bogus", {}⟩
      ⟨.ok (), .ok (), .ok (), .ok "", .ok "", .ok {}⟩).1 rfl rfl,
   (c10_exactly_one_response ⟨true, "cs->inpage", 1, "bogus", {}⟩
      ⟨.ok (), .ok (), .ok (), .ok "", .ok "", .ok {}⟩).2.1 "bogus" {} (by decide),
   (c10_exactly_one_response ⟨true, "cs->inpage", 1, "bogus", {}⟩
      ⟨.ok (), .ok (), .ok (), .ok "", .ok "", .ok {}⟩).2.2 { model? := some "Gemini" } (by decide)⟩

theorem lookupTok_cons_ne (l : List (Nat × Nat)) (x t c : Nat) (h : x ≠ c) :
    lookupTok ((x, t) :: l) c = lookupTok l c := by
  unfold lookupTok
  rw [List.find?_cons]
  have hx : ((x, t).1 == c) = false := by simpa using h
  rw [hx]

theorem lookupTok_cons_self (l : List (Nat × Nat)) (x t : Nat) :
    lookupTok ((x, t) :: l) x = some t := by
  unfold lookupTok
  rw [List.find?_cons]
  have hx : ((x, t).1 == x) = true := by simp
  rw [hx]
  rfl

theorem rtStep_counter_le (s : RtState) (e : RtEvent) : s.counter ≤ (rtStep s e).counter := by
  cases e with
  | issue c => exact Nat.le_succ _
  | teardown => exact Nat.le_succ _
  | respond c =>
      unfold rtStep
      dsimp only
      rcases hx : lookupTok s.tokens c with _ | t <;> dsimp only
      · exact le_refl _
      · split <;> simp

theorem rtStep_supersede_lt (s : RtState) (e : RtEvent) (h : e.isSupersede = true) :
    s.counter < (rtStep s e).counter := by
  cases e with
  | issue c => exact Nat.lt_succ_self _
  | teardown => exact Nat.lt_succ_self _
  | respond c => cases h

theorem rtStep_tokens_of_ne (s : RtState) (e : RtEvent) (c : Nat)
    (h : e ≠ .issue c) :
    lookupTok (rtStep s e).tokens c = lookupTok s.tokens c := by
  cases e with
  | issue x =>
      have hxc : x ≠ c := fun hx => h (by rw [hx])
      unfold rtStep
      dsimp only
      exact lookupTok_cons_ne s.tokens x (s.counter + 1) c hxc
  | teardown => rfl
  | respond x =>
      unfold rtStep
      dsimp only
      rcases hx : lookupTok s.tokens x with _ | t <;> dsimp only
      split <;> rfl

theorem rtStep_applied_mem (s : RtState) (e : RtEvent) (c : Nat)
    (h : c ∈ (rtStep s e).applied) : c ∈ s.applied ∨ e = .respond c := by
  cases e with
  | issue x => exact Or.inl h
  | teardown => exact Or.inl h
  | respond x =>
      unfold rtStep at h
      dsimp only at h
      rcases hx : lookupTok s.tokens x with _ | t
      all_goals rw [hx] at h
      · exact Or.inl h
      · dsimp only at h
        split at h
        · rcases List.mem_append.mp h with h1 | h1
          · exact Or.inl h1
          · right
            rw [List.mem_singleton.mp h1]
        · exact Or.inl h

theorem rtStep_applied_mono (s : RtState) (e : RtEvent) :
    s.applied ⊆ (rtStep s e).applied := by
  cases e with
  | issue x => exact fun a ha => ha
  | teardown => exact fun a ha => ha
  | respond x =>
      unfold rtStep
      dsimp only
      rcases hx : lookupTok s.tokens x with _ | t <;> dsimp only
      · exact fun a ha => ha
      · split
        · exact fun a ha => List.mem_append.mpr (Or.inl ha)
        · exact fun a ha => ha

theorem rtRun_counter_mono (s : RtState) (tr : List RtEvent) :
    s.counter ≤ (rtRun s tr).counter := by
  induction tr generalizing s with
  | nil => exact le_refl _
  | cons e rest ih => exact le_trans (rtStep_counter_le s e) (ih (rtStep s e))

theorem rtRun_counter_strict (s : RtState) (tr : List RtEvent)
    (h : ∃ e ∈ tr, e.isSupersede = true) : s.counter < (rtRun s tr).counter := by
  obtain ⟨e, he, hsup⟩ := h
  obtain ⟨t1, t2, rfl⟩ := List.append_of_mem he
  have h1 : rtRun s (t1 ++ e :: t2) = rtRun (rtStep (rtRun s t1) e) t2 := by
    unfold rtRun
    rw [List.foldl_append]
    rfl
  rw [h1]
  calc s.counter ≤ (rtRun s t1).counter := rtRun_counter_mono s t1
    _ < (rtStep (rtRun s t1) e).counter := rtStep_supersede_lt _ e hsup
    _ ≤ _ := rtRun_counter_mono _ t2

theorem rtRun_tokens_stable (s : RtState) (tr : List RtEvent) (c : Nat)
    (h : RtEvent.issue c ∉ tr) :
    lookupTok (rtRun s tr).tokens c = lookupTok s.tokens c := by
  induction tr generalizing s with
  | nil => rfl
  | cons e rest ih =>
      rw [List.mem_cons, not_or] at h
      obtain ⟨h1, h2⟩ := h
      show lookupTok (rtRun (rtStep s e) rest).tokens c = _
      rw [ih (rtStep s e) h2, rtStep_tokens_of_ne s e c fun he => h1 he.symm]

theorem rtRun_applied_mem (s : RtState) (tr : List RtEvent) (c : Nat)
    (h : c ∈ (rtRun s tr).applied) : c ∈ s.applied ∨ RtEvent.respond c ∈ tr := by
  induction tr generalizing s with
  | nil => exact Or.inl h
  | cons e rest ih =>
      rcases ih (rtStep s e) h with h1 | h1
      · rcases rtStep_applied_mem s e c h1 with h2 | h2
        · exact Or.inl h2
        · right
          rw [h2]
          exact List.mem_cons_self _ _
      · exact Or.inr (List.mem_cons_of_mem _ h1)

theorem rtRun_lastObserved_applied (s : RtState) (tr : List RtEvent)
    (h : ∀ c, s.lastObserved = some c → c ∈ s.applied) :
    ∀ c, (rtRun s tr).lastObserved = some c → c ∈ (rtRun s tr).applied := by
  induction tr generalizing s with
  | nil => exact h
  | cons e rest ih =>
      refine ih (rtStep s e) ?_
      intro c hc
      cases e with
      | issue x => exact rtStep_applied_mono s (.issue x) (h c hc)
      | teardown => exact rtStep_applied_mono s .teardown (h c hc)
      | respond x =>
          unfold rtStep at hc ⊢
          dsimp only at hc ⊢
          rcases hx : lookupTok s.tokens x with _ | t
          all_goals rw [hx] at hc
          all_goals dsimp only at hc ⊢
          · exact h c hc
          · split at hc
            · next hteq =>
                rw [if_pos hteq]
                dsimp only at hc ⊢
                rw [← Option.some_inj.mp hc]
                exact List.mem_append.mpr (Or.inr (List.mem_singleton.mpr rfl))
            · next hteq =>
                rw [if_neg hteq]
                exact h c hc



/-- C1: stale-response rejection. For a session trace in which call A is
issued, then a superseding event (a newer call's issue or the session
teardown, both of which bump the staleness counter) occurs before A's
response is handled, the handler finds A's captured token different from the
current counter and discards the response unconditionally: A is never
applied (its ranges are never rendered) and the session's last-observed
payload is never A's, regardless of where A's response falls in the trace. -/
theorem c1_stale_response_rejection (pre mid post : List RtEvent) (A : Nat)
    (hIssue : RtEvent.issue A ∉ pre ++ mid ++ post)
    (hResp : RtEvent.respond A ∉ pre ++ mid ++ post)
    (hSup : ∃ e ∈ mid, e.isSupersede = true) :
    A ∉ (rtRun rtInit (pre ++ RtEvent.issue A :: mid ++ RtEvent.respond A :: post)).applied ∧
    (rtRun rtInit (pre ++ RtEvent.issue A :: mid ++ RtEvent.respond A :: post)).lastObserved
      ≠ some A := by
  simp only [List.mem_append, not_or] at hIssue hResp
  obtain ⟨⟨hIp, hIm⟩, hIq⟩ := hIssue
  obtain ⟨⟨hRp, hRm⟩, hRq⟩ := hResp
  have hdecomp : rtRun rtInit (pre ++ RtEvent.issue A :: mid ++ RtEvent.respond A :: post)
      = rtRun (rtStep (rtRun (rtStep (rtRun rtInit pre) (.issue A)) mid) (.respond A)) post := by
    unfold rtRun
    rw [List.foldl_append, List.foldl_cons, List.foldl_append, List.foldl_cons]
  set s1 := rtRun rtInit pre with hs1
  set s2 := rtStep s1 (.issue A) with hs2
  set s3 := rtRun s2 mid with hs3
  set s4 := rtStep s3 (.respond A) with hs4
  have htok2 : lookupTok s2.tokens A = some (s1.counter + 1) := by
    rw [hs2]
    unfold rtStep
    dsimp only
    exact lookupTok_cons_self _ _ _
  have hcnt2 : s2.counter = s1.counter + 1 := by rw [hs2]; rfl
  have htok3 : lookupTok s3.tokens A = some (s1.counter + 1) := by
    rw [hs3, rtRun_tokens_stable s2 mid A hIm, htok2]
  have hcnt3 : s1.counter + 1 < s3.counter := by
    have hstrict := rtRun_counter_strict s2 mid hSup
    rw [hcnt2] at hstrict
    exact hstrict
  have hs4eq : s4 = s3 := by
    rw [hs4]
    unfold rtStep
    dsimp only
    rw [htok3]
    dsimp only
    rw [if_neg (by omega)]
  have happ : A ∉ (rtRun s4 post).applied := by
    intro hmem
    rcases rtRun_applied_mem s4 post A hmem with h1 | h1
    · rw [hs4eq] at h1
      rcases rtRun_applied_mem s2 mid A h1 with h2 | h2
      · have h2' : A ∈ s1.applied := h2
        rcases rtRun_applied_mem rtInit pre A h2' with h3 | h3
        · simp [rtInit] at h3
        · exact hRp h3
      · exact hRm h2
    · exact hRq h1
  have inv1 : ∀ c, s1.lastObserved = some c → c ∈ s1.applied :=
    rtRun_lastObserved_applied rtInit pre (by intro c hc; simp [rtInit] at hc)
  have inv2 : ∀ c, s2.lastObserved = some c → c ∈ s2.applied := inv1
  have inv3 : ∀ c, s3.lastObserved = some c → c ∈ s3.applied :=
    rtRun_lastObserved_applied s2 mid inv2
  have inv4 : ∀ c, s4.lastObserved = some c → c ∈ s4.applied := by
    rw [hs4eq]
    exact inv3
  constructor
  · rw [hdecomp]
    exact happ
  · rw [hdecomp]
    intro hobs
    exact happ (rtRun_lastObserved_applied s4 post inv4 A hobs)

/-- C1 witness: call 1 issued, call 2 issued, then call 1's response arrives
and is discarded. -/
theorem c1_witness :
    1 ∉ (rtRun rtInit [RtEvent.issue 1, RtEvent.issue 2, RtEvent.respond 1]).applied ∧
    (rtRun rtInit [RtEvent.issue 1, RtEvent.issue 2, RtEvent.respond 1]).lastObserved
      ≠ some 1 :=
  c1_stale_response_rejection [] [RtEvent.issue 2] [] 1 (by decide) (by decide) (by decide)

theorem acquireN_joined (n : Nat) (s : RegState) (p : Nat)
    (hc : s.cached = none) (hp : s.creating = some p) :
    acquireN n s = (List.replicate n (.joined p), s) := by
  induction n with
  | zero => rfl
  | succ n ih =>
      have hstep : acquireStep s = (.joined p, s) := by
        unfold acquireStep
        rw [hc]
        dsimp only
        rw [hp]
      unfold acquireN
      rw [hstep]
      dsimp only
      rw [ih]
      rw [List.replicate_succ]

/-- C2: at-most-one-creation invariant of the model registry (one engine
kind shown; the three getters are textually identical). A call with a cached
instance returns it immediately and unchanged; n + 1 calls arriving before
the first creation completes start exactly one underlying create() and all
return the same in-flight promise (promise 0); successful completion caches
the instance, clears the in-flight marker and settles the shared promise
with the instance; a failed completion clears the marker, caches nothing,
settles the shared promise as a failure (propagating it to every caller
holding that promise), and the next call starts a fresh creation. -/
theorem c2_at_most_one_creation (n : Nat) (inst : Nat) :
    (∀ s i, s.cached = some i → acquireStep s = (.cachedInst i, s)) ∧
    ((acquireN (n + 1) regInit).1
        = AcqResult.started 0 :: List.replicate n (.joined 0) ∧
      (acquireN (n + 1) regInit).2.createCalls = 1 ∧
      (acquireN (n + 1) regInit).2.creating = some 0 ∧
      (acquireN (n + 1) regInit).2.cached = none) ∧
    ((completeOk inst (acquireN (n + 1) regInit).2).cached = some inst ∧
      (completeOk inst (acquireN (n + 1) regInit).2).creating = none ∧
      (completeOk inst (acquireN (n + 1) regInit).2).createCalls = 1 ∧
      (0, some inst) ∈ (completeOk inst (acquireN (n + 1) regInit).2).settled ∧
      acquireStep (completeOk inst (acquireN (n + 1) regInit).2)
        = (.cachedInst inst, completeOk inst (acquireN (n + 1) regInit).2)) ∧
    ((completeFail (acquireN (n + 1) regInit).2).cached = none ∧
      (completeFail (acquireN (n + 1) regInit).2).creating = none ∧
      (completeFail (acquireN (n + 1) regInit).2).createCalls = 1 ∧
      (0, none) ∈ (completeFail (acquireN (n + 1) regInit).2).settled ∧
      (acquireStep (completeFail (acquireN (n + 1) regInit).2)).1 = .started 1 ∧
      (acquireStep (completeFail (acquireN (n + 1) regInit).2)).2.createCalls = 2) := by
  have hstate : acquireN (n + 1) regInit
      = (AcqResult.started 0 :: List.replicate n (.joined 0),
          ⟨none, some 0, 1, 1, []⟩) := by
    have hfirst : acquireStep regInit = (.started 0, ⟨none, some 0, 1, 1, []⟩) := rfl
    unfold acquireN
    rw [hfirst]
    dsimp only
    rw [acquireN_joined n ⟨none, some 0, 1, 1, []⟩ 0 rfl rfl]
  refine ⟨?_, ?_, ?_, ?_⟩
  · intro s i hs
    unfold acquireStep
    rw [hs]
  · rw [hstate]
    exact ⟨rfl, rfl, rfl, rfl⟩
  · rw [hstate]
    refine ⟨rfl, rfl, rfl, ?_, rfl⟩
    exact List.mem_singleton.mpr rfl
  · rw [hstate]
    refine ⟨rfl, rfl, rfl, ?_, rfl, rfl⟩
    exact List.mem_singleton.mpr rfl

/-- C2 witness: a cached instance is returned as-is, and three calls before
completion yield one started promise and two joins of it. -/
theorem c2_witness :
    acquireStep { cached := some 5 } = (.cachedInst 5, { cached := some 5 }) ∧
    (acquireN 3 regInit).1 = AcqResult.started 0 :: List.replicate 2 (.joined 0) :=
  ⟨(c2_at_most_one_creation 2 7).1 { cached := some 5 } 5 rfl, (c2_at_most_one_creation 2 7).2.1.1⟩



theorem brStep_notPending (s : BridgeState) (e : BrEvent) (i : Nat)
    (hp : i ∉ s.pendingIds) (hne : e ≠ .send i) : i ∉ (brStep s e).pendingIds := by
  cases e with
  | send j =>
      have hj : j ≠ i := fun h => hne (by rw [h])
      unfold brStep
      dsimp only
      rw [List.mem_cons, not_or]
      exact ⟨fun h => hj h.symm, hp⟩
  | timeoutFire j =>
      unfold brStep
      dsimp only
      split
      · intro hmem
        exact hp (List.mem_of_mem_filter hmem)
      · exact hp
  | response j b =>
      unfold brStep
      dsimp only
      split
      · intro hmem
        exact hp (List.mem_of_mem_filter hmem)
      · exact hp

theorem brStep_pending_kept (s : BridgeState) (e : BrEvent) (i : Nat)
    (hp : i ∈ s.pendingIds) (h1 : e ≠ .timeoutFire i)
    (h2 : ∀ b, e ≠ .response i b) : i ∈ (brStep s e).pendingIds := by
  cases e with
  | send j => exact List.mem_cons_of_mem _ hp
  | timeoutFire j =>
      have hj : j ≠ i := fun h => h1 (by rw [h])
      unfold brStep
      dsimp only
      split
      · exact List.mem_filter.mpr ⟨hp, by simpa using fun h => hj h.symm⟩
      · exact hp
  | response j b =>
      have hj : j ≠ i := fun h => h2 b (by rw [h])
      unfold brStep
      dsimp only
      split
      · exact List.mem_filter.mpr ⟨hp, by simpa using fun h => hj h.symm⟩
      · exact hp

theorem brStep_outcomes_mono (s : BridgeState) (e : BrEvent) :
    s.outcomes ⊆ (brStep s e).outcomes := by
  cases e with
  | send j => exact fun a ha => ha
  | timeoutFire j =>
      unfold brStep
      dsimp only
      split
      · exact fun a ha => List.mem_append.mpr (Or.inl ha)
      · exact fun a ha => ha
  | response j b =>
      unfold brStep
      dsimp only
      split
      · exact fun a ha => List.mem_append.mpr (Or.inl ha)
      · exact fun a ha => ha

theorem brStep_outcome_mem (s : BridgeState) (e : BrEvent) (i : Nat) (o : BridgeOutcome)
    (h : (i, o) ∈ (brStep s e).outcomes) :
    (i, o) ∈ s.outcomes ∨ (e = .timeoutFire i ∧ o = .timedOut) ∨ (∃ b, e = .response i b) := by
  cases e with
  | send j => exact Or.inl h
  | timeoutFire j =>
      unfold brStep at h
      dsimp only at h
      split at h
      · rcases List.mem_append.mp h with h1 | h1
        · exact Or.inl h1
        · simp only [List.mem_singleton, Prod.mk.injEq] at h1
          obtain ⟨hji, ho⟩ := h1
          right
          left
          exact ⟨by rw [hji], ho⟩
      · exact Or.inl h
  | response j b =>
      unfold brStep at h
      dsimp only at h
      split at h
      · rcases List.mem_append.mp h with h1 | h1
        · exact Or.inl h1
        · simp only [List.mem_singleton, Prod.mk.injEq] at h1
          obtain ⟨hji, ho⟩ := h1
          right
          right
          exact ⟨b, by rw [hji]⟩
      · exact Or.inl h

theorem brStep_outcome_stable (s : BridgeState) (e : BrEvent) (i : Nat) (o : BridgeOutcome)
    (hp : i ∉ s.pendingIds) (hne : e ≠ .send i)
    (h : (i, o) ∈ (brStep s e).outcomes) : (i, o) ∈ s.outcomes := by
  cases e with
  | send j => exact h
  | timeoutFire j =>
      unfold brStep at h
      dsimp only at h
      split at h
      · next hjp =>
          rcases List.mem_append.mp h with h1 | h1
          · exact h1
          · simp only [List.mem_singleton, Prod.mk.injEq] at h1
            exact absurd (by rw [h1.1]; exact hjp) hp
      · exact h
  | response j b =>
      unfold brStep at h
      dsimp only at h
      split at h
      · next hjp =>
          rcases List.mem_append.mp h with h1 | h1
          · exact h1
          · simp only [List.mem_singleton, Prod.mk.injEq] at h1
            exact absurd (by rw [h1.1]; exact hjp) hp
      · exact h

theorem brRun_notPending (s : BridgeState) (tr : List BrEvent) (i : Nat)
    (hp : i ∉ s.pendingIds) (hs : BrEvent.send i ∉ tr) :
    i ∉ (brRun s tr).pendingIds := by
  induction tr generalizing s with
  | nil => exact hp
  | cons e rest ih =>
      rw [List.mem_cons, not_or] at hs
      exact ih (brStep s e) (brStep_notPending s e i hp fun he => hs.1 he.symm) hs.2

theorem brRun_pending_kept (s : BridgeState) (tr : List BrEvent) (i : Nat)
    (hp : i ∈ s.pendingIds) (h1 : BrEvent.timeoutFire i ∉ tr)
    (h2 : ∀ b, BrEvent.response i b ∉ tr) : i ∈ (brRun s tr).pendingIds := by
  induction tr generalizing s with
  | nil => exact hp
  | cons e rest ih =>
      rw [List.mem_cons, not_or] at h1
      have h2' : ∀ b, BrEvent.response i b ∉ rest := by
        intro b
        have := h2 b
        rw [List.mem_cons, not_or] at this
        exact this.2
      refine ih (brStep s e) ?_ h1.2 h2'
      refine brStep_pending_kept s e i hp (fun he => h1.1 he.symm) fun b he => ?_
      have := h2 b
      rw [List.mem_cons, not_or] at this
      exact this.1 he.symm

theorem brRun_outcomes_mono (s : BridgeState) (tr : List BrEvent) :
    s.outcomes ⊆ (brRun s tr).outcomes := by
  induction tr generalizing s with
  | nil => exact fun a ha => ha
  | cons e rest ih => exact fun a ha => ih (brStep s e) (brStep_outcomes_mono s e ha)

theorem brRun_outcome_mem (s : BridgeState) (tr : List BrEvent) (i : Nat) (o : BridgeOutcome)
    (h : (i, o) ∈ (brRun s tr).outcomes) :
    (i, o) ∈ s.outcomes ∨ (BrEvent.timeoutFire i ∈ tr ∧ o = .timedOut) ∨
      (∃ b, BrEvent.response i b ∈ tr) := by
  induction tr generalizing s with
  | nil => exact Or.inl h
  | cons e rest ih =>
      rcases ih (brStep s e) h with h1 | h1 | h1
      · rcases brStep_outcome_mem s e i o h1 with h2 | h2 | h2
        · exact Or.inl h2
        · exact Or.inr (Or.inl ⟨h2.1 ▸ List.mem_cons_self _ _, h2.2⟩)
        · obtain ⟨b, hb⟩ := h2
          exact Or.inr (Or.inr ⟨b, hb ▸ List.mem_cons_self _ _⟩)
      · exact Or.inr (Or.inl ⟨List.mem_cons_of_mem _ h1.1, h1.2⟩)
      · obtain ⟨b, hb⟩ := h1
        exact Or.inr (Or.inr ⟨b, List.mem_cons_of_mem _ hb⟩)

theorem brRun_outcome_stable (s : BridgeState) (tr : List BrEvent) (i : Nat) (o : BridgeOutcome)
    (hp : i ∉ s.pendingIds) (hs : BrEvent.send i ∉ tr)
    (h : (i, o) ∈ (brRun s tr).outcomes) : (i, o) ∈ s.outcomes := by
  induction tr generalizing s with
  | nil => exact h
  | cons e rest ih =>
      rw [List.mem_cons, not_or] at hs
      exact brStep_outcome_stable s e i o hp (fun he => hs.1 he.symm)
        (ih (brStep s e) (brStep_notPending s e i hp fun he => hs.1 he.symm) hs.2 h)



/-- C6: timeout cleanup in the correlation bridge. For a request `i` posted
once, whose 60 s timer fires (`CALL_TIMEOUT_MS` after the post) with no
response for `i` arriving in between: the timer rejects the pending entry
with the timeout failure and removes it from the table at that moment, `i`
is never pending afterwards, and the only settlement `i` ever receives is
the timeout — any late response for `i` after the timer finds no pending
entry and is silently dropped. -/
theorem c6_timeout_cleanup (pre mid post : List BrEvent) (i : Nat)
    (hsend : BrEvent.send i ∉ pre ++ mid ++ post)
    (hfire : BrEvent.timeoutFire i ∉ pre ++ mid ++ post)
    (hresp : ∀ b, BrEvent.response i b ∉ mid) :
    (i, .timedOut) ∈ (brRun brInit (pre ++ BrEvent.send i :: mid ++ BrEvent.timeoutFire i :: post)).outcomes ∧
    i ∉ (brRun brInit (pre ++ BrEvent.send i :: mid ++ BrEvent.timeoutFire i :: post)).pendingIds ∧
    ∀ o, (i, o) ∈ (brRun brInit (pre ++ BrEvent.send i :: mid ++ BrEvent.timeoutFire i :: post)).outcomes
      → o = .timedOut := by
  simp only [List.mem_append, not_or] at hsend hfire
  obtain ⟨⟨hSp, hSm⟩, hSq⟩ := hsend
  obtain ⟨⟨hFp, hFm⟩, hFq⟩ := hfire
  have hdecomp : brRun brInit (pre ++ BrEvent.send i :: mid ++ BrEvent.timeoutFire i :: post)
      = brRun (brStep (brRun (brStep (brRun brInit pre) (.send i)) mid) (.timeoutFire i)) post := by
    unfold brRun
    rw [List.foldl_append, List.foldl_cons, List.foldl_append, List.foldl_cons]
  rw [hdecomp]
  set s1 := brRun brInit pre with hs1
  set s2 := brStep s1 (.send i) with hs2
  set s3 := brRun s2 mid with hs3
  set s4 := brStep s3 (.timeoutFire i) with hs4
  have hp1 : i ∉ s1.pendingIds :=
    brRun_notPending brInit pre i (by simp [brInit]) hSp
  have ho1 : ∀ o, (i, o) ∉ s1.outcomes := by
    intro o hmem
    have := brRun_outcome_stable brInit pre i o (by simp [brInit]) hSp hmem
    simp [brInit] at this
  have hp2 : i ∈ s2.pendingIds := by
    rw [hs2]
    exact List.mem_cons_self _ _
  have ho2 : ∀ o, (i, o) ∉ s2.outcomes := ho1
  have hp3 : i ∈ s3.pendingIds :=
    brRun_pending_kept s2 mid i hp2 hFm hresp
  have ho3 : ∀ o, (i, o) ∉ s3.outcomes := by
    intro o hmem
    rcases brRun_outcome_mem s2 mid i o hmem with h1 | h1 | h1
    · exact ho2 o h1
    · exact hFm h1.1
    · obtain ⟨b, hb⟩ := h1
      exact hresp b hb
  have hs4fire : s4 = ⟨s3.pendingIds.filter (fun j => j ≠ i), s3.outcomes ++ [(i, .timedOut)]⟩ := by
    rw [hs4]
    unfold brStep
    dsimp only
    rw [if_pos hp3]
  have hp4 : i ∉ s4.pendingIds := by
    rw [hs4fire]
    intro hmem
    have := List.mem_filter.mp hmem
    simp at this
  have ho4 : (i, BridgeOutcome.timedOut) ∈ s4.outcomes := by
    rw [hs4fire]
    exact List.mem_append.mpr (Or.inr (List.mem_singleton.mpr rfl))
  refine ⟨brRun_outcomes_mono s4 post ho4, brRun_notPending s4 post i hp4 hSq, ?_⟩
  intro o hmem
  have hstable := brRun_outcome_stable s4 post i o hp4 hSq hmem
  rw [hs4fire] at hstable
  rcases List.mem_append.mp hstable with h1 | h1
  · exact absurd h1 (ho3 o)
  · simp only [List.mem_singleton, Prod.mk.injEq] at h1
    exact h1.2

/-- C6 witness: request 1 posted, an unrelated request posted, the timer
fires, then a late response for 1 arrives and is dropped. -/
theorem c6_witness :
    (1, BridgeOutcome.timedOut) ∈
      (brRun brInit [BrEvent.send 1, BrEvent.send 2, BrEvent.timeoutFire 1,
        BrEvent.response 1 false]).outcomes ∧
    1 ∉ (brRun brInit [BrEvent.send 1, BrEvent.send 2, BrEvent.timeoutFire 1,
        BrEvent.response 1 false]).pendingIds ∧
    ∀ o, (1, o) ∈ (brRun brInit [BrEvent.send 1, BrEvent.send 2, BrEvent.timeoutFire 1,
        BrEvent.response 1 false]).outcomes → o = .timedOut :=
  c6_timeout_cleanup [] [BrEvent.send 2] [BrEvent.response 1 false] 1 (by decide) (by decide)
    (by decide)

end Typerra
